import Mathlib

/-!
Verification of the noms ordered-set engine (go/types/set.go) and the
IPFS-backed chunk store (the ipfs package source file).

Noms values are modelled as naturals: the Noms total order `Value.Less`
becomes `<` on `Nat` and `Value.Equals` becomes `=`.  The sequence tree,
chunker, cursor and diff machinery of go/types is not part of the given
sources (only set.go, which calls into it, is), so those parts are
modelled from the spec, as marked on each definition.  Content
addressing is modelled canonically: two chunks/subtrees hash equal
exactly when their content is equal, so hash comparison is modelled as
comparison of canonical content.
-/

namespace types

/-- Noms values in Noms sort order, modelled as naturals. -/
abbrev Value := Nat

/-- Modelled from the spec: a sequence node is either a leaf holding the
ordered items, or a metadata node holding the ordered children (each
child entry's hash, summary key and count are recoverable from the child
itself under canonical content addressing). -/
inductive sequenceNode where
  | leaf (items : List Value)
  | meta (children : List sequenceNode)

mutual

/-- Modelled from the spec: the items of the subtree in iteration order. -/
def flatten : sequenceNode → List Value
  | .leaf items => items
  | .meta cs => flattenList cs

/-- Items of a list of subtrees, in order. -/
def flattenList : List sequenceNode → List Value
  | [] => []
  | c :: cs => flatten c ++ flattenList cs

end

mutual

/-- Modelled from the spec: the number of leaf-level items in the
subtree (the Go sequence's numLeaves, computed from the per-child
subtree-item-counts of metadata entries; this is what Set.Len returns). -/
def numLeaves : sequenceNode → Nat
  | .leaf items => items.length
  | .meta cs => numLeavesList cs

/-- Total item count of a list of subtrees. -/
def numLeavesList : List sequenceNode → Nat
  | [] => 0
  | c :: cs => numLeaves c + numLeavesList cs

end

/-- Modelled from the spec: the summary key of a subtree is the ordering
key of the last item in that subtree. -/
def summaryKey (n : sequenceNode) : Option Value :=
  (flatten n).getLast?

/-- Modelled from the spec: the chunker's boundary splitting.  Items are
appended to an in-progress buffer; after each append the content-defined
boundary function is evaluated and, if it fires, the buffer is sealed.
At the end all open buffers are sealed; zero items produce a single
empty chunk. -/
def chunkBy (bnd : α → Bool) : List α → List (List α)
  | [] => [[]]
  | [x] => [[x]]
  | x :: y :: xs =>
    let rest := chunkBy bnd (y :: xs)
    if bnd x then [x] :: rest
    else (x :: rest.headD []) :: rest.tail

/-- Modelled from the spec: the chunker recursively applies the boundary
test one level up to the sealed chunks of the level below, until a lone
root chunk remains; if no progress is possible a metadata root is
synthesized above the current level. -/
def buildLevels (bnd : sequenceNode → Bool) (ns : List sequenceNode) : sequenceNode :=
  match ns with
  | [n] => n
  | ns =>
    let cs := (chunkBy bnd ns).map sequenceNode.meta
    if h : cs.length < ns.length then buildLevels bnd cs
    else sequenceNode.meta ns
termination_by ns.length
decreasing_by simpa [cs] using h

/-- Modelled from the spec: the sequence chunker consumes the ordered
item stream, seals leaf chunks at content-defined boundaries and builds
the metadata levels above them the same way.  The leaf-level and
meta-level boundary functions are parameters (in the Go code they are
rolling hashes over the encoded bytes). -/
def buildTree (leafBnd : Value → Bool) (metaBnd : sequenceNode → Bool)
    (items : List Value) : sequenceNode :=
  buildLevels metaBnd ((chunkBy leafBnd items).map .leaf)

/-- The Set value: wraps one sequence (set.go: type Set struct). -/
structure Set where
  seq : sequenceNode

/-- set.go newSet. -/
def newSet (seq : sequenceNode) : Set := ⟨seq⟩

/-- The dedupe loop of buildSetData: last is appended to the output
exactly when the next value differs from it, and the final last is
always appended. -/
def buildSetDataLoop : Value → List Value → List Value
  | last, [] => [last]
  | last, v :: rest =>
    if v = last then buildSetDataLoop v rest
    else last :: buildSetDataLoop v rest

/-- set.go buildSetData: sorts the values (sort.Stable with the Noms
order) and collapses runs of equal values to one. -/
def buildSetData (values : List Value) : List Value :=
  match values.mergeSort (· ≤ ·) with
  | [] => []
  | v0 :: rest => buildSetDataLoop v0 rest

/-- set.go NewSet: dedupe and sort the arguments, then feed them to a
fresh set sequence chunker.  The ValueReadWriter argument only carries
the chunk sink and is dropped; the chunker's boundary functions are
parameters of the model. -/
def NewSet (leafBnd : Value → Bool) (metaBnd : sequenceNode → Bool)
    (v : List Value) : Set :=
  newSet (buildTree leafBnd metaBnd (buildSetData v))

/-- set.go Set.Len: the number of leaf items of the root sequence. -/
def Set.Len (s : Set) : Nat := numLeaves s.seq

/-- set.go Set.Empty. -/
def Set.Empty (s : Set) : Bool := s.Len == 0

/-- set.go Set.Hash, modelled canonically: the hash of a collection is
the hash of its root chunk, and content addressing makes hash equality
coincide with equality of the canonical content. -/
def Set.Hash (s : Set) : List Value := flatten s.seq

/-- set.go Set.Equals: hash comparison. -/
def Set.Equals (s other : Set) : Bool := s.Hash == other.Hash

/-- Modelled from the spec: cursor iteration (set.go Set.IterAll via
newCursorAt + cur.iter) visits the leaf items in order; the list
collects the callback arguments. -/
def Set.IterAll (s : Set) : List Value := flatten s.seq

mutual

/-- Modelled from the spec: seek-by-index descends the tree using the
per-child subtree-item-counts (prefix sums); at a leaf it reads the item
at the remaining offset.  none is the invalid (out of range) cursor. -/
def seekByIndex : sequenceNode → Nat → Option Value
  | .leaf items, i => items[i]?
  | .meta cs, i => seekChildren cs i

/-- Child descent of seek-by-index: skip whole children while the index
is at least the child's subtree item count. -/
def seekChildren : List sequenceNode → Nat → Option Value
  | [], _ => none
  | c :: cs, i =>
    if i < numLeaves c then seekByIndex c i
    else seekChildren cs (i - numLeaves c)

end

/-- set.go Set.At: panics (modelled as none) when idx is at least Len,
otherwise reads the current item of a cursor seeked to idx. -/
def Set.At (s : Set) (idx : Nat) : Option Value :=
  if idx ≥ s.Len then none
  else seekByIndex s.seq idx

/-- set.go readSetInput's loop state: lastV is the previously received
value (none initially), acc the values appended to the chunker so far in
reverse.  Receiving nil, or a value not strictly greater than lastV,
panics (modelled as none).  When the channel is exhausted the chunker is
finished into a Set. -/
def readSetInputLoop (leafBnd : Value → Bool) (metaBnd : sequenceNode → Bool) :
    Option Value → List Value → List (Option Value) → Option Set
  | _, acc, [] => some (newSet (buildTree leafBnd metaBnd acc.reverse))
  | lastV, acc, v? :: rest =>
    match v? with
    | none => none
    | some v =>
      match lastV with
      | some l =>
        if l < v then readSetInputLoop leafBnd metaBnd (some v) (v :: acc) rest
        else none
      | none => readSetInputLoop leafBnd metaBnd (some v) (v :: acc) rest

/-- set.go readSetInput: consume the input channel (modelled as the list
of sent values, nil sends as none), checking nil-ness and strict
ordering of each received value, and produce the finished Set. -/
def readSetInput (leafBnd : Value → Bool) (metaBnd : sequenceNode → Bool)
    (vChan : List (Option Value)) : Option Set :=
  readSetInputLoop leafBnd metaBnd none [] vChan

/-- set.go NewStreamingSet: spawns readSetInput over the input channel
(modelled synchronously; the one-element output channel holds the
result). -/
def NewStreamingSet (leafBnd : Value → Bool) (metaBnd : sequenceNode → Bool)
    (vChan : List (Option Value)) : Option Set :=
  readSetInput leafBnd metaBnd vChan

/-- Modelled from the spec: a change record of the ordered-sequence
diff, keyed by ordering key, with old value or absent and new value or
absent.  For sets the key is the value itself. -/
structure ValueChanged where
  key : Value
  oldValue : Option Value
  newValue : Option Value
deriving DecidableEq

/-- Change record for a value present in last but absent from current. -/
def removedRecord (v : Value) : ValueChanged := ⟨v, some v, none⟩

/-- Change record for a value absent from last but present in current. -/
def addedRecord (v : Value) : ValueChanged := ⟨v, none, some v⟩

/-- Modelled from the spec: the left-to-right strategy walks both trees'
leaf-level item streams in lock-step, in key order, emitting a change as
soon as a mismatch is found and advancing the lagging side.  Comparisons
are always by ordering key. -/
def diffItems : List Value → List Value → List ValueChanged
  | [], ys => ys.map addedRecord
  | x :: xs, [] => (x :: xs).map removedRecord
  | x :: xs, y :: ys =>
    if x = y then diffItems xs ys
    else if x < y then removedRecord x :: diffItems xs (y :: ys)
    else addedRecord y :: diffItems (x :: xs) ys
termination_by xs ys => xs.length + ys.length

/-- Modelled from the spec: left-to-right diff of two sequences walks
the two leaf cursors in lock-step over the item streams. -/
def orderedSequenceDiffLeftRight (last cur : sequenceNode) : List ValueChanged :=
  diffItems (flatten last) (flatten cur)

/-- Modelled from the spec: top-down diff recursively compares subtrees
by hash, skipping entirely on a match (content addressing makes hash
equality coincide with content equality); otherwise it descends into
both, splitting into pairwise child comparisons while the children's
summary-key ranges stay aligned, and falling back to the item-level walk
when they do not. -/
def orderedSequenceDiffTopDown (last cur : sequenceNode) : List ValueChanged :=
  if flatten last = flatten cur then []
  else
    match last, cur with
    | .meta (c :: cs), .meta (d :: ds) =>
      if summaryKey c = summaryKey d then
        orderedSequenceDiffTopDown c d ++
          orderedSequenceDiffTopDown (.meta cs) (.meta ds)
      else diffItems (flatten (.meta (c :: cs))) (flatten (.meta (d :: ds)))
    | a, b => diffItems (flatten a) (flatten b)
termination_by sizeOf last + sizeOf cur

/-- Modelled from the spec: the hybrid strategy attempts hash-based
subtree skipping like top-down but bounds the look-ahead work (the fuel
parameter); when the bound is exhausted it falls back to the
left-to-right emission strategy. -/
def orderedSequenceDiffBest (fuel : Nat) (last cur : sequenceNode) : List ValueChanged :=
  if hf : fuel = 0 then diffItems (flatten last) (flatten cur)
  else
    if flatten last = flatten cur then []
    else
      match last, cur with
      | .meta (c :: cs), .meta (d :: ds) =>
        if summaryKey c = summaryKey d then
          orderedSequenceDiffBest (fuel - 1) c d ++
            orderedSequenceDiffBest (fuel - 1) (.meta cs) (.meta ds)
        else diffItems (flatten (.meta (c :: cs))) (flatten (.meta (d :: ds)))
      | a, b => diffItems (flatten a) (flatten b)
termination_by fuel
decreasing_by
  · exact Nat.sub_lt (Nat.pos_of_ne_zero hf) Nat.one_pos
  · exact Nat.sub_lt (Nat.pos_of_ne_zero hf) Nat.one_pos

/-- set.go Set.Diff: no changes when the hashes agree, otherwise the
top-down diff from last to s.  The output channel is modelled as the
emitted record list; the close channel (cooperative cancellation) is
never raised. -/
def Set.Diff (s last : Set) : List ValueChanged :=
  if s.Equals last then []
  else orderedSequenceDiffTopDown last.seq s.seq

/-- set.go Set.DiffHybrid: no changes when the hashes agree, otherwise
the hybrid diff from last to s, with its look-ahead budget left as a
parameter of the model. -/
def Set.DiffHybrid (s last : Set) (fuel : Nat) : List ValueChanged :=
  if s.Equals last then []
  else orderedSequenceDiffBest fuel last.seq s.seq

/-- set.go Set.DiffLeftRight: no changes when the hashes agree,
otherwise the left-to-right diff from last to s. -/
def Set.DiffLeftRight (s last : Set) : List ValueChanged :=
  if s.Equals last then []
  else orderedSequenceDiffLeftRight last.seq s.seq

/-- The ordering invariant of a set sequence: the items are strictly
increasing in Noms sort order (spec section 3). -/
def wellFormed (n : sequenceNode) : Prop :=
  (flatten n).Chain' (· < ·)

instance (n : sequenceNode) : Decidable (wellFormed n) := by
  unfold wellFormed; infer_instance

end types

namespace ipfs

/-- Noms hashes (hash.Hash, a fixed-width digest), modelled as naturals;
0 is the zero value Hash\x7b\x7d. -/
abbrev Hash := Nat

/-- Bytes of a chunk, modelled as a list of byte values. -/
abbrev Bytes := List Nat

/-- A noms chunk: its hash together with its data, as produced by
chunks.NewChunkWithHash. -/
structure Chunk where
  h : Hash
  data : Bytes
deriving DecidableEq

/-- chunks.Chunk.IsEmpty: true when the data has zero length. -/
def Chunk.IsEmpty (c : Chunk) : Bool := c.data.isEmpty

/-- chunks.EmptyChunk: the sentinel returned for an absent hash; a chunk
with zero-length data (its hash is the hash of the empty byte string,
whose concrete digest value is irrelevant here and modelled as 0). -/
def EmptyChunk : Chunk := ⟨0, []⟩

/-- The state of the ipfs chunkStore.  blocks is the content of the
backing IPFS block storage (the Blockstore, which the non-local
BlockService also reads and writes), keyed by the CID derived from the
noms hash; root is the cached root pointer cs.root (none when not yet
loaded); nomsFile and nomsLocalFile are the root-pointer files written
next to the repo (none when the file does not exist; an existing file
holds the committed hash).  isLocal is cs.local. -/
structure chunkStore where
  blocks : Hash → Option Bytes
  root : Option Hash
  nomsFile : Option Hash
  nomsLocalFile : Option Hash
  isLocal : Bool

/-- chunkStore.getLocalNameFile: the noms-local file for local mode, the
noms file otherwise; returns the file's content in the model. -/
def getLocalNameFile (cs : chunkStore) (l : Bool) : Option Hash :=
  if l then cs.nomsLocalFile else cs.nomsFile

/-- chunkStore.Get: look the CID up in the Blockstore (local) or through
the BlockService (non-local); a not-found error yields the EmptyChunk
sentinel, otherwise the block's bytes are wrapped with the requested
hash (NewChunkWithHash).  Other I/O errors panic and are outside the
model. -/
def Get (cs : chunkStore) (h : Hash) : Chunk :=
  if cs.isLocal then
    match cs.blocks h with
    | none => EmptyChunk
    | some b => ⟨h, b⟩
  else
    match cs.blocks h with
    | none => EmptyChunk
    | some b => ⟨h, b⟩

/-- chunkStore.Has: in local mode ask the Blockstore; in non-local mode
the BlockService has no Has, so Get is used and the result tested
against the empty sentinel. -/
def Has (cs : chunkStore) (h : Hash) : Bool :=
  if cs.isLocal then (cs.blocks h).isSome
  else !(Get cs h).IsEmpty

/-- chunkStore.HasMany: in local mode, collect into misses every hash
the store does not have.  In non-local mode the code spawns one
goroutine per hash to add misses to a shared map, but returns the map
without ever calling wg.Wait(), so nothing the goroutines insert is
guaranteed (or even safe) to be visible at return: the returned set is
the empty set the function started with (the goroutines additionally
all capture the shared loop variable h). -/
def HasMany (cs : chunkStore) (hashes : Finset Hash) : Finset Hash :=
  if cs.isLocal then hashes.filter (fun h => ¬ Has cs h)
  else ∅

/-- chunkStore.Put: store the chunk's data in the block storage under
the CID derived from the chunk's own hash (both the local Blockstore.Put
and the non-local Blocks.AddBlock path). -/
def Put (cs : chunkStore) (c : Chunk) : chunkStore :=
  { cs with blocks := fun h => if h = c.h then some c.data else cs.blocks h }

/-- chunkStore.Rebase: read the root file for this mode (noms-local in
local mode, noms otherwise); a missing or empty file leaves the zero
hash; cache the result in cs.root. -/
def Rebase (cs : chunkStore) : chunkStore :=
  { cs with root := some ((getLocalNameFile cs cs.isLocal).getD 0) }

/-- chunkStore.Root: lazily Rebase when the cache is not yet loaded,
then return the cached root.  Returns the (possibly updated) store and
the hash. -/
def Root (cs : chunkStore) : chunkStore × Hash :=
  match cs.root with
  | none =>
    let cs1 := Rebase cs
    (cs1, cs1.root.getD 0)
  | some h => (cs, h)

/-- chunkStore.Commit(current, last): when the cached root is loaded and
equals current, report the no-op and return true with nothing written;
otherwise write current into the noms-local file (local mode only) and
into the noms file (always), set the cache to current and return true.
The last argument is never consulted and no conflict is ever reported
(the code's optimistic-concurrency TODO). -/
def Commit (cs : chunkStore) (current last : Hash) : chunkStore × Bool :=
  if cs.root = some current then (cs, true)
  else
    let cs1 := if cs.isLocal then { cs with nomsLocalFile := some current } else cs
    let cs2 := { cs1 with nomsFile := some current }
    ({ cs2 with root := some current }, true)

/-- The store's current persisted root: the content of the root file the
store itself reads on Rebase (zero hash when absent). -/
def persistedRoot (cs : chunkStore) : Hash :=
  (getLocalNameFile cs cs.isLocal).getD 0

/-- A store with empty block storage, no cached root, no root files. -/
def emptyStore (l : Bool) : chunkStore :=
  ⟨fun _ => none, none, none, none, l⟩

end ipfs

/-- C7: for every hash absent from the store, Get returns the
empty-chunk sentinel (in both the local and the non-local mode) rather
than an error: absence is not a failure of the get operation. -/
theorem get_absent_returns_empty_chunk (cs : ipfs.chunkStore) (h : ipfs.Hash)
    (habs : cs.blocks h = none) : ipfs.Get cs h = ipfs.EmptyChunk := by
  unfold ipfs.Get
  rw [habs]
  cases cs.isLocal <;> simp

/-- Witness for C7 at a concrete store and hash. -/
theorem get_absent_returns_empty_chunk_witness :
    ipfs.Get (ipfs.emptyStore false) 3 = ipfs.EmptyChunk :=
  get_absent_returns_empty_chunk (ipfs.emptyStore false) 3 rfl

/-- C6 counterexample: in non-local mode, after Put of a chunk with
zero-length data, Has of its hash returns false (Has is implemented via
Get and cannot distinguish a stored empty chunk from absence), refuting
the claim for every chunk. -/
theorem put_has_empty_chunk_counterexample :
    ipfs.Has (ipfs.Put (ipfs.emptyStore false) ⟨5, []⟩) 5 = false := by
  decide

/-- C6 amended: after Put(c), Get(c.Hash()) returns c's original bytes;
Has(c.Hash()) returns true in local mode always, and in non-local mode
whenever c's bytes are nonempty (non-local Has goes through Get and
treats the empty sentinel as absent); for a hash absent from the store,
Has returns false. -/
theorem put_get_has_amended (cs : ipfs.chunkStore) (c : ipfs.Chunk) :
    (ipfs.Get (ipfs.Put cs c) c.h).data = c.data
    ∧ (cs.isLocal = true ∨ c.data ≠ [] → ipfs.Has (ipfs.Put cs c) c.h = true)
    ∧ (∀ h, cs.blocks h = none → ipfs.Has cs h = false) := by
  refine ⟨?_, ?_, ?_⟩
  · unfold ipfs.Get ipfs.Put
    cases cs.isLocal <;> simp
  · intro hc
    unfold ipfs.Has ipfs.Get ipfs.Put ipfs.Chunk.IsEmpty
    rcases hc with hl | hd
    · simp [hl]
    · cases hll : cs.isLocal <;> simp [hd]
  · intro h habs
    unfold ipfs.Has
    rw [get_absent_returns_empty_chunk cs h habs]
    simp [habs, ipfs.EmptyChunk, ipfs.Chunk.IsEmpty]

/-- Witness for C6 amended at a concrete store, chunk and absent hash. -/
theorem put_get_has_amended_witness :
    (ipfs.Get (ipfs.Put (ipfs.emptyStore false) ⟨5, [7]⟩) 5).data = [7]
    ∧ ipfs.Has (ipfs.Put (ipfs.emptyStore false) ⟨5, [7]⟩) 5 = true
    ∧ ipfs.Has (ipfs.emptyStore false) 9 = false :=
  ⟨(put_get_has_amended (ipfs.emptyStore false) ⟨5, [7]⟩).1,
   (put_get_has_amended (ipfs.emptyStore false) ⟨5, [7]⟩).2.1 (Or.inr (by decide)),
   (put_get_has_amended (ipfs.emptyStore false) ⟨5, [7]⟩).2.2 9 rfl⟩

/-- C5, code bug: the non-local HasMany spawns one goroutine per hash to
record misses but returns the misses set without ever calling wg.Wait,
so the absent hash 7 is not reported as a miss (the result is the empty
set the function started with), while the local mode does report it. -/
theorem hasMany_nonlocal_returns_early_bug :
    ipfs.Has (ipfs.emptyStore false) 7 = false
    ∧ ipfs.HasMany (ipfs.emptyStore false) {7} = ∅
    ∧ ipfs.HasMany (ipfs.emptyStore true) {7} = {7} := by
  refine ⟨by decide, rfl, by decide⟩

/-- C1 counterexample: a store whose persisted (and cached) root is 1 is
asked to Commit(new := 2, old := 0); the current root 1 is neither old
nor new, yet Commit returns true and silently overwrites the persisted
root with 2. -/
theorem commit_overwrites_diverged_root_counterexample :
    ipfs.persistedRoot ⟨fun _ => none, some 1, some 1, some 1, false⟩ = 1
    ∧ (ipfs.Commit ⟨fun _ => none, some 1, some 1, some 1, false⟩ 2 0).snd = true
    ∧ ipfs.persistedRoot
        (ipfs.Commit ⟨fun _ => none, some 1, some 1, some 1, false⟩ 2 0).fst = 2 := by
  refine ⟨rfl, rfl, rfl⟩

/-- C1 amended: Commit never fails and never reports a conflict: it
always returns true, and unless the cached root already equals the new
hash (a pure no-op) it overwrites the persisted root with the new hash
regardless of the old argument. -/
theorem commit_always_succeeds_amended (cs : ipfs.chunkStore)
    (current last : ipfs.Hash) :
    (ipfs.Commit cs current last).snd = true
    ∧ ((ipfs.Commit cs current last).fst = cs
        ∨ ipfs.persistedRoot (ipfs.Commit cs current last).fst = current) := by
  unfold ipfs.Commit
  by_cases hr : cs.root = some current
  · simp [hr]
  · rw [if_neg hr]
    refine ⟨rfl, Or.inr ?_⟩
    unfold ipfs.persistedRoot ipfs.getLocalNameFile
    cases hl : cs.isLocal <;> simp [hl]

/-- C4 counterexample: a store whose root (cached and persisted) is 1 is
asked to Commit(newRoot := 2, expected := 2); newRoot equals expected,
yet the call is not treated as a no-op: it returns true and moves the
persisted root from 1 to 2. -/
theorem commit_noop_detection_counterexample :
    ipfs.persistedRoot ⟨fun _ => none, some 1, some 1, some 1, true⟩ = 1
    ∧ (ipfs.Commit ⟨fun _ => none, some 1, some 1, some 1, true⟩ 2 2).snd = true
    ∧ ipfs.persistedRoot
        (ipfs.Commit ⟨fun _ => none, some 1, some 1, some 1, true⟩ 2 2).fst = 2 := by
  refine ⟨rfl, rfl, rfl⟩

/-- C4 amended: Commit(newRoot, expected) with newRoot equal to expected
always returns true, and leaves the persisted root value unchanged
provided the store's root already equals newRoot — detected by the
loaded cache (no write at all) or by rewriting the root file with the
identical value; a root diverged from newRoot is overwritten instead of
being detected. -/
theorem commit_noop_amended (cs : ipfs.chunkStore) (r : ipfs.Hash)
    (hr : ipfs.persistedRoot cs = r ∨ cs.root = some r) :
    (ipfs.Commit cs r r).snd = true
    ∧ ipfs.persistedRoot (ipfs.Commit cs r r).fst = ipfs.persistedRoot cs := by
  unfold ipfs.Commit
  by_cases hc : cs.root = some r
  · simp [hc]
  · have hp : ipfs.persistedRoot cs = r := by tauto
    rw [if_neg hc]
    refine ⟨rfl, ?_⟩
    rw [hp]
    unfold ipfs.persistedRoot ipfs.getLocalNameFile
    cases hl : cs.isLocal <;> simp [hl]

/-- Witness for C4 amended at a concrete store whose persisted root
already equals the committed hash while the cache is not loaded. -/
theorem commit_noop_amended_witness :
    (ipfs.Commit ⟨fun _ => none, none, some 3, some 3, false⟩ 3 3).snd = true
    ∧ ipfs.persistedRoot
        (ipfs.Commit ⟨fun _ => none, none, some 3, some 3, false⟩ 3 3).fst
      = ipfs.persistedRoot ⟨fun _ => none, none, some 3, some 3, false⟩ :=
  commit_noop_amended ⟨fun _ => none, none, some 3, some 3, false⟩ 3 (Or.inl rfl)


namespace types

theorem flatten_leaf (items : List Value) : flatten (.leaf items) = items := by
  rw [flatten]

theorem flatten_meta (cs : List sequenceNode) : flatten (.meta cs) = flattenList cs := by
  rw [flatten]

theorem flattenList_nil : flattenList [] = [] := by
  rw [flattenList]

theorem flattenList_cons (c : sequenceNode) (cs : List sequenceNode) :
    flattenList (c :: cs) = flatten c ++ flattenList cs := by
  rw [flattenList]

theorem flattenList_append (l1 l2 : List sequenceNode) :
    flattenList (l1 ++ l2) = flattenList l1 ++ flattenList l2 := by
  induction l1 with
  | nil => simp [flattenList_nil]
  | cons c cs ih => simp [flattenList_cons, ih]

theorem chunkBy_ne_nil (bnd : α → Bool) (l : List α) : chunkBy bnd l ≠ [] := by
  match l with
  | [] => simp [chunkBy]
  | [x] => simp [chunkBy]
  | x :: y :: xs =>
    rw [chunkBy]
    by_cases hb : bnd x <;> simp [hb]

theorem chunkBy_flatten (bnd : α → Bool) (l : List α) : (chunkBy bnd l).flatten = l := by
  match l with
  | [] => simp [chunkBy]
  | [x] => simp [chunkBy]
  | x :: y :: xs =>
    have ih := chunkBy_flatten bnd (y :: xs)
    rw [chunkBy]
    rcases hr : chunkBy bnd (y :: xs) with _ | ⟨c, cs⟩
    · exact absurd hr (chunkBy_ne_nil bnd (y :: xs))
    · rw [hr] at ih
      by_cases hb : bnd x <;> simpa [hb] using ih

theorem flattenList_map_leaf (xss : List (List Value)) :
    flattenList (xss.map .leaf) = xss.flatten := by
  induction xss with
  | nil => simp [flattenList_nil]
  | cons xs rest ih => simp [flattenList_cons, flatten_leaf, ih]

theorem flattenList_map_meta (xss : List (List sequenceNode)) :
    flattenList (xss.map .meta) = flattenList xss.flatten := by
  induction xss with
  | nil => simp [flattenList_nil]
  | cons xs rest ih => simp [flattenList_cons, flatten_meta, ih, flattenList_append]

theorem flatten_buildLevels (bnd : sequenceNode → Bool) (ns : List sequenceNode) :
    flatten (buildLevels bnd ns) = flattenList ns := by
  rw [buildLevels.eq_def]
  split
  · next n => simp [flattenList_cons, flattenList_nil]
  · simp only
    split
    · next h =>
      rw [flatten_buildLevels bnd ((chunkBy bnd ns).map sequenceNode.meta)]
      rw [flattenList_map_meta, chunkBy_flatten]
    · next h => exact flatten_meta ns
termination_by ns.length
decreasing_by simp_all

theorem flatten_buildTree (lb : Value → Bool) (mb : sequenceNode → Bool)
    (items : List Value) : flatten (buildTree lb mb items) = items := by
  unfold buildTree
  rw [flatten_buildLevels, flattenList_map_leaf, chunkBy_flatten]

end types

namespace types

mutual

theorem numLeaves_eq_length : ∀ n : sequenceNode, numLeaves n = (flatten n).length
  | .leaf items => by rw [numLeaves, flatten_leaf]
  | .meta cs => by rw [numLeaves, flatten_meta, numLeavesList_eq_length cs]

theorem numLeavesList_eq_length :
    ∀ l : List sequenceNode, numLeavesList l = (flattenList l).length
  | [] => by rw [numLeavesList, flattenList_nil]; rfl
  | c :: cs => by
    rw [numLeavesList, flattenList_cons, List.length_append,
      numLeaves_eq_length c, numLeavesList_eq_length cs]

end

theorem buildLevels_singleton (bnd : sequenceNode → Bool) (n : sequenceNode) :
    buildLevels bnd [n] = n := by
  rw [buildLevels.eq_def]

theorem buildSetData_nil : buildSetData [] = [] := by
  rw [buildSetData]
  simp [List.mergeSort_nil]

theorem buildTree_nil (lb : Value → Bool) (mb : sequenceNode → Bool) :
    buildTree lb mb [] = .leaf [] := by
  unfold buildTree
  rw [chunkBy]
  simp only [List.map]
  exact buildLevels_singleton mb (.leaf [])

end types

/-- C9: building a set from zero items yields a valid collection — the
single empty leaf of the spec's degenerate case, not an absent root —
whose Len is 0, whose Empty is true, and whose iteration terminates
immediately without yielding an item. -/
theorem newSet_empty_collection (lb : types.Value → Bool)
    (mb : types.sequenceNode → Bool) :
    types.NewSet lb mb [] = types.newSet (.leaf [])
    ∧ (types.NewSet lb mb []).Len = 0
    ∧ (types.NewSet lb mb []).Empty = true
    ∧ (types.NewSet lb mb []).IterAll = [] := by
  have hb : types.NewSet lb mb [] = types.newSet (.leaf []) := by
    unfold types.NewSet
    rw [types.buildSetData_nil, types.buildTree_nil]
  refine ⟨hb, ?_, ?_, ?_⟩
  · rw [hb]
    rfl
  · rw [hb]
    rfl
  · rw [hb]
    rfl

namespace types

theorem buildSetDataLoop_toFinset (a : Value) (l : List Value) :
    (buildSetDataLoop a l).toFinset = insert a l.toFinset := by
  induction l generalizing a with
  | nil => simp [buildSetDataLoop]
  | cons v rest ih =>
    rw [buildSetDataLoop]
    by_cases hv : v = a
    · subst hv
      simp [ih]
    · simp [hv, ih]

theorem buildSetDataLoop_sorted (a : Value) (l : List Value)
    (h : (a :: l).Chain' (· ≤ ·)) :
    (buildSetDataLoop a l).Chain' (· < ·) ∧ ∀ x ∈ buildSetDataLoop a l, a ≤ x := by
  induction l generalizing a with
  | nil => simp [buildSetDataLoop]
  | cons v rest ih =>
    have hav : a ≤ v := (List.chain'_cons.mp h).1
    have htail : (v :: rest).Chain' (· ≤ ·) := (List.chain'_cons.mp h).2
    rw [buildSetDataLoop]
    by_cases hv : v = a
    · subst hv
      simpa using ih v htail
    · obtain ⟨hc, hb⟩ := ih v htail
      have hva : a < v := Nat.lt_of_le_of_ne hav (fun hh => hv hh.symm)
      rw [if_neg hv]
      constructor
      · rw [List.chain'_cons']
        refine ⟨?_, hc⟩
        intro y hy
        have hmem : y ∈ buildSetDataLoop v rest := List.mem_of_mem_head? hy
        exact Nat.lt_of_lt_of_le hva (hb y hmem)
      · intro x hx
        rcases List.mem_cons.mp hx with hx | hx
        · exact Nat.le_of_eq hx.symm
        · exact Nat.le_trans (Nat.le_of_lt hva) (hb x hx)

theorem buildSetData_toFinset (vs : List Value) :
    (buildSetData vs).toFinset = vs.toFinset := by
  rw [buildSetData]
  cases hm : vs.mergeSort (· ≤ ·) with
  | nil =>
    have hperm : List.Perm [] vs := hm ▸ List.mergeSort_perm vs _
    have hvs : vs = [] := hperm.symm.eq_nil
    subst hvs
    simp
  | cons v0 rest =>
    have hperm : List.Perm (v0 :: rest) vs := hm ▸ List.mergeSort_perm vs _
    have htf : (v0 :: rest).toFinset = vs.toFinset := by
      ext x
      simp only [List.mem_toFinset]
      exact hperm.mem_iff
    rw [buildSetDataLoop_toFinset, ← htf]
    simp

theorem buildSetData_chain (vs : List Value) :
    (buildSetData vs).Chain' (· < ·) := by
  rw [buildSetData]
  cases hm : vs.mergeSort (· ≤ ·) with
  | nil => simp
  | cons v0 rest =>
    have hsorted : (v0 :: rest).Chain' (· ≤ ·) := by
      rw [← hm, List.chain'_iff_pairwise]
      exact List.sorted_mergeSort' vs
    exact (buildSetDataLoop_sorted v0 rest hsorted).1

end types

/-- C3: the set built by NewSet from a finite slice of values contains
exactly the distinct values of the slice (duplicates collapsed by
equality), and iterating it yields those members in strictly increasing
order, each exactly once. -/
theorem newSet_members_sorted_dedupe (lb : types.Value → Bool)
    (mb : types.sequenceNode → Bool) (vs : List types.Value) :
    (types.NewSet lb mb vs).IterAll.toFinset = vs.toFinset
    ∧ (types.NewSet lb mb vs).IterAll.Chain' (· < ·)
    ∧ (types.NewSet lb mb vs).IterAll.Nodup := by
  have hit : (types.NewSet lb mb vs).IterAll = types.buildSetData vs :=
    types.flatten_buildTree lb mb (types.buildSetData vs)
  rw [hit]
  refine ⟨types.buildSetData_toFinset vs, types.buildSetData_chain vs, ?_⟩
  have hp := (List.chain'_iff_pairwise).mp (types.buildSetData_chain vs)
  exact hp.imp (fun hlt => Nat.ne_of_lt hlt)

namespace types

theorem readSetInputLoop_isSome (lb : Value → Bool) (mb : sequenceNode → Bool) :
    ∀ (vs : List (Option Value)) (lastV : Option Value) (acc : List Value),
    (readSetInputLoop lb mb lastV acc vs).isSome
    ↔ ∃ ws : List Value, vs = ws.map some ∧ (lastV.toList ++ ws).Chain' (· < ·) := by
  intro vs
  induction vs with
  | nil =>
    intro lastV acc
    simp only [readSetInputLoop, Option.isSome_some, true_iff]
    refine ⟨[], rfl, ?_⟩
    cases lastV <;> simp
  | cons v? rest ih =>
    intro lastV acc
    match v? with
    | none =>
      simp only [readSetInputLoop, Option.isSome_none, Bool.false_eq_true, false_iff]
      rintro ⟨ws, hws, -⟩
      cases ws <;> simp at hws
    | some v =>
      match lastV with
      | none =>
        rw [show readSetInputLoop lb mb none acc (some v :: rest)
            = readSetInputLoop lb mb (some v) (v :: acc) rest from rfl]
        rw [ih (some v) (v :: acc)]
        constructor
        · rintro ⟨ws, hrest, hch⟩
          exact ⟨v :: ws, by simp [hrest], by simpa using hch⟩
        · rintro ⟨ws, hws, hch⟩
          match ws with
          | [] => simp at hws
          | w :: ws =>
            simp only [List.map_cons, List.cons.injEq, Option.some.injEq] at hws
            obtain ⟨hv, hrest⟩ := hws
            subst hv
            exact ⟨ws, hrest, by simpa using hch⟩
      | some l =>
        by_cases hlv : l < v
        · rw [show readSetInputLoop lb mb (some l) acc (some v :: rest)
              = if l < v then readSetInputLoop lb mb (some v) (v :: acc) rest
                else none from rfl]
          rw [if_pos hlv, ih (some v) (v :: acc)]
          constructor
          · rintro ⟨ws, hrest, hch⟩
            refine ⟨v :: ws, by simp [hrest], ?_⟩
            simp only [Option.toList_some, List.singleton_append] at hch ⊢
            exact List.chain'_cons.mpr ⟨hlv, hch⟩
          · rintro ⟨ws, hws, hch⟩
            match ws with
            | [] => simp at hws
            | w :: ws =>
              simp only [List.map_cons, List.cons.injEq, Option.some.injEq] at hws
              obtain ⟨hv, hrest⟩ := hws
              subst hv
              refine ⟨ws, hrest, ?_⟩
              simp only [Option.toList_some, List.singleton_append] at hch ⊢
              exact (List.chain'_cons.mp hch).2
        · rw [show readSetInputLoop lb mb (some l) acc (some v :: rest)
              = if l < v then readSetInputLoop lb mb (some v) (v :: acc) rest
                else none from rfl]
          rw [if_neg hlv]
          simp only [Option.isSome_none, Bool.false_eq_true, false_iff]
          rintro ⟨ws, hws, hch⟩
          match ws with
          | [] => simp at hws
          | w :: ws =>
            simp only [List.map_cons, List.cons.injEq, Option.some.injEq] at hws
            obtain ⟨hv, -⟩ := hws
            subst hv
            simp only [Option.toList_some, List.singleton_append] at hch
            exact hlv (List.chain'_cons.mp hch).1

end types

/-- C8: NewStreamingSet (via readSetInput) produces a finished Set
exactly when every sent value is non-nil and strictly greater than the
previously sent value; a nil value or an out-of-order value makes the
construction panic (modelled as none) instead of producing a set. -/
theorem streaming_set_order_check (lb : types.Value → Bool)
    (mb : types.sequenceNode → Bool) (vChan : List (Option types.Value)) :
    (types.NewStreamingSet lb mb vChan).isSome
    ↔ ∃ ws : List types.Value, vChan = ws.map some ∧ ws.Chain' (· < ·) := by
  unfold types.NewStreamingSet types.readSetInput
  rw [types.readSetInputLoop_isSome lb mb vChan none []]
  simp

namespace types

mutual

theorem seekByIndex_eq :
    ∀ (n : sequenceNode) (i : Nat), seekByIndex n i = (flatten n)[i]?
  | .leaf items, i => by rw [seekByIndex, flatten_leaf]
  | .meta cs, i => by rw [seekByIndex, flatten_meta, seekChildren_eq cs i]

theorem seekChildren_eq :
    ∀ (l : List sequenceNode) (i : Nat), seekChildren l i = (flattenList l)[i]?
  | [], i => by rw [seekChildren, flattenList_nil]; simp
  | c :: cs, i => by
    rw [seekChildren, flattenList_cons]
    by_cases hi : i < numLeaves c
    · rw [if_pos hi, seekByIndex_eq c i]
      rw [numLeaves_eq_length] at hi
      rw [List.getElem?_append, if_pos hi]
    · rw [if_neg hi, seekChildren_eq cs (i - numLeaves c)]
      rw [numLeaves_eq_length] at hi
      rw [List.getElem?_append, if_neg hi, numLeaves_eq_length]

end

end types

/-- C10: for every set s and index idx, At(idx) panics (modelled as the
none result) exactly when idx is at least Len; for every idx below Len
it returns the element at position idx of the set's member order (the
iteration order, which for well-formed sets is strictly increasing). -/
theorem set_at_bounds (s : types.Set) (idx : Nat) :
    (s.At idx = none ↔ s.Len ≤ idx)
    ∧ (idx < s.Len → s.At idx = s.IterAll[idx]?) := by
  have hlen : s.Len = (types.flatten s.seq).length := types.numLeaves_eq_length s.seq
  unfold types.Set.At
  by_cases hge : s.Len ≤ idx
  · rw [if_pos hge]
    exact ⟨by simp [hge], fun hlt => absurd hge (Nat.not_le.mpr hlt)⟩
  · rw [if_neg hge]
    rw [types.seekByIndex_eq]
    refine ⟨?_, fun _ => rfl⟩
    rw [List.getElem?_eq_none_iff, ← hlen]

/-- Witness for C10 at a concrete two-level set and an in-range index. -/
theorem set_at_bounds_witness :
    2 < (types.Set.mk (.meta [.leaf [1, 2], .leaf [5]])).Len
    ∧ (types.Set.mk (.meta [.leaf [1, 2], .leaf [5]])).At 2
      = (types.Set.mk (.meta [.leaf [1, 2], .leaf [5]])).IterAll[2]? := by
  have hlt : 2 < (types.Set.mk (.meta [.leaf [1, 2], .leaf [5]])).Len := by
    show 2 < types.numLeaves (.meta [.leaf [1, 2], .leaf [5]])
    rw [types.numLeaves_eq_length, types.flatten_meta, types.flattenList_cons,
      types.flattenList_cons, types.flattenList_nil, types.flatten_leaf,
      types.flatten_leaf]
    decide
  exact ⟨hlt, (set_at_bounds (types.Set.mk (.meta [.leaf [1, 2], .leaf [5]])) 2).2 hlt⟩

namespace types

theorem diffItems_nil_left (ys : List Value) :
    diffItems [] ys = ys.map addedRecord := by
  rw [diffItems]

theorem diffItems_nil_right (xs : List Value) :
    diffItems xs [] = xs.map removedRecord := by
  match xs with
  | [] => rw [diffItems]; rfl
  | x :: xs => rw [diffItems]

theorem diffItems_cons_cons (x y : Value) (xs ys : List Value) :
    diffItems (x :: xs) (y :: ys)
    = if x = y then diffItems xs ys
      else if x < y then removedRecord x :: diffItems xs (y :: ys)
      else addedRecord y :: diffItems (x :: xs) ys := by
  rw [diffItems]

theorem diffItems_self (xs : List Value) : diffItems xs xs = [] := by
  induction xs with
  | nil => rw [diffItems_nil_left]; rfl
  | cons x xs ih => rw [diffItems_cons_cons, if_pos rfl, ih]

end types


namespace types

theorem diffItems_append (k : Value) :
    ∀ (xs1 ys1 xs2 ys2 : List Value),
    (∀ x ∈ xs1, x ≤ k) → (∀ y ∈ ys1, y ≤ k) →
    (∀ x ∈ xs2, k < x) → (∀ y ∈ ys2, k < y) →
    diffItems (xs1 ++ xs2) (ys1 ++ ys2) = diffItems xs1 ys1 ++ diffItems xs2 ys2
  | [], [], xs2, ys2, _, _, _, _ => by
    simp [diffItems_nil_left]
  | [], y :: ys1, xs2, ys2, hx1, hy1, hx2, hy2 => by
    match xs2 with
    | [] => simp [diffItems_nil_left]
    | x :: xs2 =>
      have hyx : y < x :=
        Nat.lt_of_le_of_lt (hy1 y (List.mem_cons_self y ys1)) (hx2 x (List.mem_cons_self x xs2))
      rw [List.nil_append, List.cons_append, diffItems_cons_cons,
        if_neg (Nat.ne_of_gt hyx), if_neg (Nat.not_lt.mpr (Nat.le_of_lt hyx))]
      have hrec := diffItems_append k [] ys1 (x :: xs2) ys2 (by simp)
        (fun a ha => hy1 a (List.mem_cons_of_mem y ha)) hx2 hy2
      rw [List.nil_append] at hrec
      rw [hrec, diffItems_nil_left, diffItems_nil_left]
      simp
  | x :: xs1, [], xs2, ys2, hx1, hy1, hx2, hy2 => by
    match ys2 with
    | [] => simp [diffItems_nil_right]
    | y :: ys2 =>
      have hxy : x < y :=
        Nat.lt_of_le_of_lt (hx1 x (List.mem_cons_self x xs1)) (hy2 y (List.mem_cons_self y ys2))
      rw [List.cons_append, List.nil_append, diffItems_cons_cons,
        if_neg (Nat.ne_of_lt hxy), if_pos hxy]
      have hrec := diffItems_append k xs1 [] xs2 (y :: ys2)
        (fun a ha => hx1 a (List.mem_cons_of_mem x ha)) (by simp) hx2 hy2
      rw [List.nil_append] at hrec
      rw [hrec, diffItems_nil_right, diffItems_nil_right]
      simp
  | x :: xs1, y :: ys1, xs2, ys2, hx1, hy1, hx2, hy2 => by
    rw [List.cons_append, List.cons_append, diffItems_cons_cons]
    rw [show diffItems (x :: xs1) (y :: ys1)
        = if x = y then diffItems xs1 ys1
          else if x < y then removedRecord x :: diffItems xs1 (y :: ys1)
          else addedRecord y :: diffItems (x :: xs1) ys1 from diffItems_cons_cons x y xs1 ys1]
    rcases Nat.lt_trichotomy x y with hlt | heq | hgt
    · rw [if_neg (Nat.ne_of_lt hlt), if_pos hlt, if_neg (Nat.ne_of_lt hlt), if_pos hlt]
      have hrec := diffItems_append k xs1 (y :: ys1) xs2 ys2
        (fun a ha => hx1 a (List.mem_cons_of_mem x ha)) hy1 hx2 hy2
      rw [List.cons_append] at hrec
      rw [hrec]
      simp
    · rw [if_pos heq, if_pos heq]
      exact diffItems_append k xs1 ys1 xs2 ys2
        (fun a ha => hx1 a (List.mem_cons_of_mem x ha))
        (fun a ha => hy1 a (List.mem_cons_of_mem y ha)) hx2 hy2
    · rw [if_neg (Nat.ne_of_gt hgt), if_neg (Nat.not_lt.mpr (Nat.le_of_lt hgt)),
        if_neg (Nat.ne_of_gt hgt), if_neg (Nat.not_lt.mpr (Nat.le_of_lt hgt))]
      have hrec := diffItems_append k (x :: xs1) ys1 xs2 ys2 hx1
        (fun a ha => hy1 a (List.mem_cons_of_mem y ha)) hx2 hy2
      rw [List.cons_append] at hrec
      rw [hrec]
      simp
termination_by xs1 ys1 _ _ _ _ _ _ => xs1.length + ys1.length

end types

namespace types

theorem pairwise_bounds (xs rest : List Value) (k : Value)
    (h : (xs ++ rest).Pairwise (· < ·)) (hk : xs.getLast? = some k) :
    (∀ x ∈ xs, x ≤ k) ∧ (∀ y ∈ rest, k < y) := by
  obtain ⟨xs', rfl⟩ := List.getLast?_eq_some_iff.mp hk
  rw [List.append_assoc, List.pairwise_append] at h
  obtain ⟨hxs', hkr, hcross⟩ := h
  rw [List.pairwise_append] at hkr
  constructor
  · intro x hx
    rcases List.mem_append.mp hx with hx | hx
    · exact Nat.le_of_lt (hcross x hx k (by simp))
    · rw [List.mem_singleton] at hx
      exact Nat.le_of_eq hx
  · intro y hy
    exact hkr.2.2 k (by simp) y hy

theorem wellFormed_parts (c : sequenceNode) (cs : List sequenceNode)
    (h : wellFormed (.meta (c :: cs))) : wellFormed c ∧ wellFormed (.meta cs) := by
  unfold wellFormed at h ⊢
  rw [flatten_meta, flattenList_cons] at h
  rw [flatten_meta]
  rw [List.chain'_append] at h
  exact ⟨h.1, h.2.1⟩

theorem wellFormed_pairwise (c : sequenceNode) (cs : List sequenceNode)
    (h : wellFormed (.meta (c :: cs))) :
    (flatten c ++ flattenList cs).Pairwise (· < ·) := by
  unfold wellFormed at h
  rw [flatten_meta, flattenList_cons] at h
  exact (List.chain'_iff_pairwise).mp h

theorem diffTopDown_eq (last cur : sequenceNode)
    (hl : wellFormed last) (hc : wellFormed cur) :
    orderedSequenceDiffTopDown last cur = diffItems (flatten last) (flatten cur) := by
  rw [orderedSequenceDiffTopDown.eq_def]
  by_cases heq : flatten last = flatten cur
  · rw [if_pos heq, heq, diffItems_self]
  · rw [if_neg heq]
    split
    · next c cs d ds =>
      by_cases hk : summaryKey c = summaryKey d
      · rw [if_pos hk]
        obtain ⟨hwc, hwcs⟩ := wellFormed_parts c cs hl
        obtain ⟨hwd, hwds⟩ := wellFormed_parts d ds hc
        rw [diffTopDown_eq c d hwc hwd, diffTopDown_eq (.meta cs) (.meta ds) hwcs hwds]
        rw [flatten_meta, flatten_meta, flatten_meta, flatten_meta,
          flattenList_cons, flattenList_cons]
        rcases hsk : summaryKey c with _ | k
        · have hfc : flatten c = [] := by
            rw [summaryKey] at hsk
            exact List.getLast?_eq_none_iff.mp hsk
          have hfd : flatten d = [] := by
            have hskd : summaryKey d = none := hk.symm.trans hsk
            rw [summaryKey] at hskd
            exact List.getLast?_eq_none_iff.mp hskd
          rw [hfc, hfd]
          simp [diffItems_nil_left]
        · have hskc : (flatten c).getLast? = some k := by rwa [summaryKey] at hsk
          have hskd : (flatten d).getLast? = some k := by
            have := hk.symm.trans hsk
            rwa [summaryKey] at this
          have hb1 := pairwise_bounds (flatten c) (flattenList cs) k
            (wellFormed_pairwise c cs hl) hskc
          have hb2 := pairwise_bounds (flatten d) (flattenList ds) k
            (wellFormed_pairwise d ds hc) hskd
          exact (diffItems_append k (flatten c) (flatten d) (flattenList cs)
            (flattenList ds) hb1.1 hb2.1 hb1.2 hb2.2).symm
      · rw [if_neg hk]
    · rfl
termination_by sizeOf last + sizeOf cur

end types

namespace types

theorem diffBest_eq (fuel : Nat) (last cur : sequenceNode)
    (hl : wellFormed last) (hc : wellFormed cur) :
    orderedSequenceDiffBest fuel last cur = diffItems (flatten last) (flatten cur) := by
  rw [orderedSequenceDiffBest.eq_def]
  by_cases hf : fuel = 0
  · rw [dif_pos hf]
  · rw [dif_neg hf]
    by_cases heq : flatten last = flatten cur
    · rw [if_pos heq, heq, diffItems_self]
    · rw [if_neg heq]
      split
      · next c cs d ds =>
        by_cases hk : summaryKey c = summaryKey d
        · rw [if_pos hk]
          obtain ⟨hwc, hwcs⟩ := wellFormed_parts c cs hl
          obtain ⟨hwd, hwds⟩ := wellFormed_parts d ds hc
          rw [diffBest_eq (fuel - 1) c d hwc hwd,
            diffBest_eq (fuel - 1) (.meta cs) (.meta ds) hwcs hwds]
          rw [flatten_meta, flatten_meta, flatten_meta, flatten_meta,
            flattenList_cons, flattenList_cons]
          rcases hsk : summaryKey c with _ | k
          · have hfc : flatten c = [] := by
              rw [summaryKey] at hsk
              exact List.getLast?_eq_none_iff.mp hsk
            have hfd : flatten d = [] := by
              have hskd : summaryKey d = none := hk.symm.trans hsk
              rw [summaryKey] at hskd
              exact List.getLast?_eq_none_iff.mp hskd
            rw [hfc, hfd]
            simp [diffItems_nil_left]
          · have hskc : (flatten c).getLast? = some k := by rwa [summaryKey] at hsk
            have hskd : (flatten d).getLast? = some k := by
              have := hk.symm.trans hsk
              rwa [summaryKey] at this
            have hb1 := pairwise_bounds (flatten c) (flattenList cs) k
              (wellFormed_pairwise c cs hl) hskc
            have hb2 := pairwise_bounds (flatten d) (flattenList ds) k
              (wellFormed_pairwise d ds hc) hskd
            exact (diffItems_append k (flatten c) (flatten d) (flattenList cs)
              (flattenList ds) hb1.1 hb2.1 hb1.2 hb2.2).symm
        · rw [if_neg hk]
      · rfl
termination_by fuel
decreasing_by
  · exact Nat.sub_lt (Nat.pos_of_ne_zero hf) Nat.one_pos
  · exact Nat.sub_lt (Nat.pos_of_ne_zero hf) Nat.one_pos

end types

/-- C2: on every pair of well-formed sets, the three diff entry points
Diff (top-down), DiffHybrid (any look-ahead budget) and DiffLeftRight
emit exactly the same change records once collected into an
order-independent structure (a multiset); they can differ only in
emission order, timing and work. -/
theorem diff_algorithms_agree (s last : types.Set) (fuel : Nat)
    (hs : types.wellFormed s.seq) (hl : types.wellFormed last.seq) :
    (↑(s.Diff last) : Multiset types.ValueChanged) = ↑(s.DiffLeftRight last)
    ∧ (↑(s.DiffHybrid last fuel) : Multiset types.ValueChanged)
      = ↑(s.DiffLeftRight last) := by
  have h1 : s.Diff last = s.DiffLeftRight last := by
    unfold types.Set.Diff types.Set.DiffLeftRight
    by_cases he : s.Equals last = true
    · rw [if_pos he, if_pos he]
    · rw [if_neg he, if_neg he]
      unfold types.orderedSequenceDiffLeftRight
      exact types.diffTopDown_eq last.seq s.seq hl hs
  have h2 : s.DiffHybrid last fuel = s.DiffLeftRight last := by
    unfold types.Set.DiffHybrid types.Set.DiffLeftRight
    by_cases he : s.Equals last = true
    · rw [if_pos he, if_pos he]
    · rw [if_neg he, if_neg he]
      unfold types.orderedSequenceDiffLeftRight
      exact types.diffBest_eq fuel last.seq s.seq hl hs
  exact ⟨by rw [h1], by rw [h2]⟩

/-- Witness for C2 at the spec's concrete scenario, packaged as
two-level trees: last is the set with members 1,2,3,4,5 and s the set
with members 1,2,4,5,6. -/
theorem diff_algorithms_agree_witness :
    (↑((types.Set.mk (.meta [.leaf [1, 2], .leaf [4, 5, 6]])).Diff
        (types.Set.mk (.meta [.leaf [1, 2, 3], .leaf [4, 5]])))
      : Multiset types.ValueChanged)
    = ↑((types.Set.mk (.meta [.leaf [1, 2], .leaf [4, 5, 6]])).DiffLeftRight
        (types.Set.mk (.meta [.leaf [1, 2, 3], .leaf [4, 5]])))
    ∧ (↑((types.Set.mk (.meta [.leaf [1, 2], .leaf [4, 5, 6]])).DiffHybrid
        (types.Set.mk (.meta [.leaf [1, 2, 3], .leaf [4, 5]])) 2)
      : Multiset types.ValueChanged)
    = ↑((types.Set.mk (.meta [.leaf [1, 2], .leaf [4, 5, 6]])).DiffLeftRight
        (types.Set.mk (.meta [.leaf [1, 2, 3], .leaf [4, 5]]))) := by
  have hwf1 : types.wellFormed
      (types.Set.mk (.meta [.leaf [1, 2], .leaf [4, 5, 6]])).seq := by
    unfold types.wellFormed
    rw [types.flatten_meta, types.flattenList_cons, types.flattenList_cons,
      types.flattenList_nil, types.flatten_leaf, types.flatten_leaf]
    simp only [List.append_nil, List.cons_append, List.nil_append]
    rw [List.chain'_iff_pairwise]
    decide
  have hwf2 : types.wellFormed
      (types.Set.mk (.meta [.leaf [1, 2, 3], .leaf [4, 5]])).seq := by
    unfold types.wellFormed
    rw [types.flatten_meta, types.flattenList_cons, types.flattenList_cons,
      types.flattenList_nil, types.flatten_leaf, types.flatten_leaf]
    simp only [List.append_nil, List.cons_append, List.nil_append]
    rw [List.chain'_iff_pairwise]
    decide
  exact diff_algorithms_agree (types.Set.mk (.meta [.leaf [1, 2], .leaf [4, 5, 6]]))
    (types.Set.mk (.meta [.leaf [1, 2, 3], .leaf [4, 5]])) 2 hwf1 hwf2
